import Mathlib

/-!
Shallow embedding of `drivers/misc/memscav.c` ("Scavenger of memory hidden
from the kernel"), and verification of its specification.

Machine integers are modelled as `Nat` with explicit reduction modulo `2 ^ 64`
where the C `u64` / `unsigned long long` arithmetic can wrap.  External
collaborators (the resource tracker's `region_intersects`, the memory
manager's `add_memory_driver_managed`, `try_module_get`, and `kmalloc` /
`krealloc` success) are modelled as oracle parameters, following the spec's
"injected capability" guidance.
-/

namespace Memscav

/-- Modulus of unsigned 64-bit arithmetic (`u64` in the driver). -/
def U64 : Nat := 2 ^ 64

/-- `struct range` from `linux/range.h`: an inclusive physical-address
interval.  The C field `end` is spelled `end'` because `end` is reserved
in Lean. -/
structure Range where
  start : Nat
  end' : Nat
deriving DecidableEq

/-- The kernel macro `ALIGN(x, a)` for a power-of-two `a`, in u64 arithmetic:
`(x + a - 1) & ~(a - 1)` computed modulo `2 ^ 64`; for a power of two the
mask rounds down to a multiple of `a`, i.e. `y & ~(a - 1) = y / a * a`. -/
def ALIGN (x a : Nat) : Nat := (x + a - 1) % U64 / a * a

/-- The inner loop of `find_hidden_blocks` over one range (memscav.c:241-248):
starting from `start`, step by `block_sz` while the C guard
`start + block_sz < ranges[i].end` holds (u64 arithmetic, hence the
`% U64`), appending `start` whenever the resource tracker reports the whole
block free (`region_intersects(start, block_sz, ...) == REGION_DISJOINT`,
modelled by the oracle `free start block_sz = true`).  The C loop has no
intrinsic termination bound (the guard can wrap around), so the model is
fuel-indexed; theorems quantify over the fuel. -/
def scanLoop (free : Nat → Nat → Bool) (block_sz e : Nat) : Nat → Nat → List Nat
  | 0, _ => []
  | fuel + 1, start =>
    if (start + block_sz) % U64 < e then
      (if free start block_sz then [start] else []) ++
        scanLoop free block_sz e fuel ((start + block_sz) % U64)
    else []

/-- `find_hidden_blocks` (memscav.c:232-256) with every `kmalloc` succeeding:
for each range in order, scan from `ALIGN(range.start, block_sz)`; the
per-range results are concatenated in range order (`list_add_tail` keeps
discovery order). -/
def find_hidden_blocks (free : Nat → Nat → Bool) (block_sz fuel : Nat)
    (ranges : List Range) : List Nat :=
  ranges.foldr
    (fun r acc => scanLoop free block_sz r.end' fuel (ALIGN r.start block_sz) ++ acc) []

/-- Decidable "the scan loop exits by its guard within `fuel` steps":
mirrors `scanLoop`'s control flow, `true` iff the guard
`(start + block_sz) % 2^64 < e` fails at some point reachable in `fuel`
iterations. -/
def scanTerm (block_sz e : Nat) : Nat → Nat → Bool
  | 0, _ => false
  | fuel + 1, start =>
    if (start + block_sz) % U64 < e then
      scanTerm block_sz e fuel ((start + block_sz) % U64)
    else true

/-- Once the loop's exit is reachable within `n` steps, the result no longer
depends on the fuel: any `m ≥ n` gives the same list. -/
theorem scanLoop_stable (free : Nat → Nat → Bool) (block_sz e : Nat) :
    ∀ (n : Nat) (start : Nat), scanTerm block_sz e n start = true →
      ∀ m, n ≤ m → scanLoop free block_sz e m start = scanLoop free block_sz e n start := by
  intro n
  induction n with
  | zero => intro start h; simp [scanTerm] at h
  | succ k ih =>
    intro start h m hm
    cases m with
    | zero => omega
    | succ m' =>
      by_cases hg : (start + block_sz) % U64 < e
      · have h' : scanTerm block_sz e k ((start + block_sz) % U64) = true := by
          simpa [scanTerm, hg] using h
        simp only [scanLoop, hg, if_true]
        rw [ih _ h' m' (Nat.le_of_succ_le_succ hm)]
      · simp [scanLoop, hg]

/-- The inner scan loop with the allocation oracle threaded: `alloc n` tells
whether the `n`-th `kmalloc` inside `hidden_block_add` succeeds.  `none`
models `hidden_block_add` returning `-ENOMEM` (the `goto out` path of
`find_hidden_blocks`); the counter of performed allocations is threaded so
the oracle is consulted in call order. -/
def scanLoopA (free : Nat → Nat → Bool) (alloc : Nat → Bool) (block_sz e : Nat) :
    Nat → Nat → Nat → Option (Nat × List Nat)
  | 0, _, n => some (n, [])
  | fuel + 1, start, n =>
    if (start + block_sz) % U64 < e then
      if free start block_sz then
        if alloc n then
          match scanLoopA free alloc block_sz e fuel ((start + block_sz) % U64) (n + 1) with
          | some p => some (p.1, start :: p.2)
          | none => none
        else none
      else scanLoopA free alloc block_sz e fuel ((start + block_sz) % U64) n
    else some (n, [])

/-- `find_hidden_blocks` over the range list with the allocation oracle. -/
def find_hidden_blocksAux (free : Nat → Nat → Bool) (alloc : Nat → Bool)
    (block_sz fuel : Nat) : List Range → Nat → Option (Nat × List Nat)
  | [], n => some (n, [])
  | r :: rs, n =>
    match scanLoopA free alloc block_sz r.end' fuel (ALIGN r.start block_sz) n with
    | some p =>
      match find_hidden_blocksAux free alloc block_sz fuel rs p.1 with
      | some q => some (q.1, p.2 ++ q.2)
      | none => none
    | none => none

/-- A run of `find_hidden_blocks` observed at the module-state level:
result is `(rc, hidden_blocks, hidden_blocks_cnt)` after the call.  On
success `rc = 0` and every `hidden_block_add` pushed one node and
incremented the counter; on `-ENOMEM` the `out:` path runs
`hidden_blocks_purge()`, which frees every node (decrementing the counter
each time), so the observable list is empty and the counter zero. -/
def find_hidden_blocks_run (free : Nat → Nat → Bool) (alloc : Nat → Bool)
    (block_sz fuel : Nat) (ranges : List Range) : Int × List Nat × Nat :=
  match find_hidden_blocksAux free alloc block_sz fuel ranges 0 with
  | some p => (0, p.2, p.2.length)
  | none => (-12, [], 0)

/-- `ram_map_add` (memscav.c:64-78), the stored interval: `start = base`,
`end = base + size - 1` in u64 arithmetic (the `+ U64 - 1` keeps the Nat
subtraction faithful to the wrapping C subtraction when `base + size = 0`). -/
def mkRange (base size : Nat) : Range :=
  ⟨base % U64, (base + size + (U64 - 1)) % U64⟩

/-- An EFI memory descriptor, restricted to the fields `ram_map_from_efi`
reads: `md->type`, `md->phys_addr`, `md->num_pages`. -/
structure EfiDesc where
  typ : Nat
  phys_addr : Nat
  num_pages : Nat
deriving DecidableEq

/-- `EFI_CONVENTIONAL_MEMORY` from the EFI specification. -/
def EFI_CONVENTIONAL_MEMORY : Nat := 7

/-- `EFI_PAGE_SHIFT`: EFI pages are 4 KiB. -/
def EFI_PAGE_SHIFT : Nat := 12

/-- `cmp_range` (memscav.c:151-161) compares only `start`; as a Bool
total preorder for sorting it is `r1.start ≤ r2.start`. -/
def cmp_range_le (r1 r2 : Range) : Bool := r1.start ≤ r2.start

/-- `ram_map_from_efi` (memscav.c:206-230) with every allocation succeeding:
keep only `EFI_CONVENTIONAL_MEMORY` descriptors, add each as the range
`[phys_addr, phys_addr + (num_pages << EFI_PAGE_SHIFT) - 1]`, then
`sort(..., cmp_range, ...)`; the kernel heapsort is modelled by `mergeSort`
with the same comparator (any comparator-respecting permutation). -/
def ram_map_from_efi (mds : List EfiDesc) : List Range :=
  ((mds.filter fun md => md.typ == EFI_CONVENTIONAL_MEMORY).map fun md =>
      mkRange md.phys_addr (md.num_pages * 2 ^ EFI_PAGE_SHIFT % U64)).mergeSort cmp_range_le

/-- `ram_map_from_fdt` (memscav.c:181-203) with every allocation succeeding:
every `(address, size)` reg pair of every `/memory` node becomes a range,
then the same sort.  A node is its list of reg pairs. -/
def ram_map_from_fdt (nodes : List (List (Nat × Nat))) : List Range :=
  ((nodes.flatten).map fun p => mkRange p.1 p.2).mergeSort cmp_range_le

/-- The EFI builder loop with the allocation oracle: `alloc n` is the success
of the `n`-th `krealloc` in `ram_map_add`; `none` is `-ENOMEM`. -/
def ram_map_from_efiAux (alloc : Nat → Bool) : List EfiDesc → Nat → Option (List Range)
  | [], _ => some []
  | md :: mds, n =>
    if md.typ == EFI_CONVENTIONAL_MEMORY then
      if alloc n then
        match ram_map_from_efiAux alloc mds (n + 1) with
        | some rs => some (mkRange md.phys_addr (md.num_pages * 2 ^ EFI_PAGE_SHIFT % U64) :: rs)
        | none => none
      else none
    else ram_map_from_efiAux alloc mds n

/-- A run of `ram_map_from_efi` observed at the module-state level: result is
`(rc, ranges)` after the call.  On `-ENOMEM` the error path runs
`ram_map_free()` before returning, so the observable range collection is
empty. -/
def ram_map_from_efi_run (alloc : Nat → Bool) (mds : List EfiDesc) : Int × List Range :=
  match ram_map_from_efiAux alloc mds 0 with
  | some rs => (0, rs.mergeSort cmp_range_le)
  | none => (-12, [])

/-- The module-global mutable state the scavenge path touches:
`hidden_blocks` (front = earliest discovered), `hidden_blocks_cnt`, and the
`unloadable` flag (the spec's `unlock_permitted`, initially `true`). -/
structure ScavState where
  hidden_blocks : List Nat
  hidden_blocks_cnt : Nat
  unloadable : Bool
deriving DecidableEq

/-- `disable_unload` (memscav.c:87-98): a no-op when already locked;
otherwise the flag is cleared only if `try_module_get` succeeds (`mg`);
on failure it only logs a warning and leaves `unloadable` unchanged. -/
def disable_unload (mg : Bool) (unl : Bool) : Bool :=
  if !unl then unl
  else if !mg then unl
  else false

/-- The pop/register loop of `scavenge_store` (memscav.c:310-324).  Runs
while `size >= block_sz` and the list is non-empty; each iteration pops the
front block, calls `add_memory_driver_managed` (outcome given by the oracle
`reg`), logs a warning on failure, and removes the block with a bare
`list_del` regardless of the outcome (note: not `hidden_block_free`, so the
counter is untouched).  Returns the popped record `(address, registered?)`
in pop order, the remaining list, and the final value of `size`. -/
def scavenge_loop (reg : Nat → Bool) (block_sz : Nat) (size : Nat) :
    List Nat → List (Nat × Bool) × List Nat × Nat
  | [] => ([], [], size)
  | b :: rest =>
    if block_sz ≤ size then
      let r := scavenge_loop reg block_sz (size - block_sz) rest
      ((b, reg b) :: r.1, r.2.1, r.2.2)
    else ([], b :: rest, size)

/-- `scavenge_store` (memscav.c:293-331) after `kstrtoull` succeeded with
value `size`: validation (`-EINVAL` when `size` is zero or not a multiple of
`block_sz`, before any state change), then the pop/register loop, then the
`total > size` check that fires `disable_unload` iff at least one block was
popped.  `mg` is the `try_module_get` outcome.  Returns
`(rc, popped record, new state)`; `rc = 0` stands for the successful
`return count`.  `hidden_blocks_cnt` is left as-is because the loop uses
`list_del` directly and never decrements the counter. -/
def scavenge_store (reg : Nat → Bool) (mg : Bool) (block_sz size : Nat)
    (st : ScavState) : Int × List (Nat × Bool) × ScavState :=
  if size = 0 ∨ size % block_sz ≠ 0 then (-22, [], st)
  else
    let r := scavenge_loop reg block_sz size st.hidden_blocks
    (0, r.1,
      { hidden_blocks := r.2.1,
        hidden_blocks_cnt := st.hidden_blocks_cnt,
        unloadable := if r.2.2 < size then disable_unload mg st.unloadable else st.unloadable })

/-- An administrative operation of the engine that can mutate state after
initialization: a `scavenge` write, or (debug builds) a `probe` write.
Each carries its external-oracle outcomes. -/
inductive Op where
  | scavenge (reg : Nat → Bool) (mg : Bool) (size : Nat)
  | probe (mg : Bool) (addr : Nat) (ok : Bool)

/-- The state transition of one administrative operation.  `probe`
(memscav.c:120-146) checks `IS_ALIGNED(phys_addr, block_sz)`, registers one
block (`ok` is the `add_memory_driver_managed` outcome), and calls
`disable_unload` only on success; it touches no other engine state. -/
def Op.step (block_sz : Nat) (st : ScavState) : Op → ScavState
  | .scavenge reg mg size => (scavenge_store reg mg block_sz size st).2.2
  | .probe mg addr ok =>
    if addr % block_sz = 0 ∧ ok then
      { st with unloadable := disable_unload mg st.unloadable }
    else st

/-- Run a sequence of administrative operations. -/
def runOps (block_sz : Nat) (st : ScavState) (ops : List Op) : ScavState :=
  ops.foldl (Op.step block_sz) st

/-- The coalescing loop of `hidden_blocks_show` (memscav.c:258-290), carrying
the current run accumulator `(start, size)`; `size = 0` means "no run open
yet" (the first iteration).  The contiguity check is the C comparison
`(start + size) == b->phys` in u64 arithmetic.  Emits one
`(run_start, run_size)` pair per run, in output order; the final flush is
the `if (size && ...)` after the walk.  Truncation at `PAGE_SIZE` is byte
counting over the rendered text and is not modelled. -/
def coalesceAux (block_sz : Nat) : List Nat → Nat → Nat → List (Nat × Nat)
  | [], start, size => if size ≠ 0 then [(start, size)] else []
  | b :: rest, start, size =>
    if size = 0 then coalesceAux block_sz rest b block_sz
    else if (start + size) % U64 = b then coalesceAux block_sz rest start (size + block_sz)
    else (start, size) :: coalesceAux block_sz rest b block_sz

/-- `hidden_blocks_show`: the sequence of `(run_start, run_size)` pairs the
sysfs read renders, one line each.  The walk only reads the list
(`list_for_each_entry`), so the underlying list is untouched by
construction. -/
def hidden_blocks_show (block_sz : Nat) (blocks : List Nat) : List (Nat × Nat) :=
  coalesceAux block_sz blocks 0 0

/-- One rendered line `"%#llx-%#llx (%#llx)"` for a `(run_start, run_size)`
pair: `(start, start + size - 1, size)` with the u64 subtraction made
explicit. -/
def render_line (p : Nat × Nat) : Nat × Nat × Nat :=
  (p.1, (p.1 + p.2 + (U64 - 1)) % U64, p.2)

/-- Modelled from the spec: split a block list into maximal runs of
address-contiguous blocks — "block i+1's address equals block i's address
plus block_size".  Written from the spec's words, to be compared with
`hidden_blocks_show`. -/
def specRuns (block_sz : Nat) : List Nat → List (List Nat)
  | [] => []
  | b :: rest =>
    match specRuns block_sz rest with
    | [] => [[b]]
    | [] :: rs => [b] :: [] :: rs
    | (c :: run) :: rs =>
      if b + block_sz = c then (b :: c :: run) :: rs
      else [b] :: (c :: run) :: rs

/-- Modelled from the spec: render one run as `(run_start, run_size)`. -/
def fmtRun (block_sz : Nat) (run : List Nat) : Nat × Nat :=
  (run.headD 0, run.length * block_sz)

/-- Modelled from the spec: `format_hidden_blocks` — one
`(run_start, run_size)` pair per maximal contiguous run. -/
def spec_format_hidden_blocks (block_sz : Nat) (blocks : List Nat) : List (Nat × Nat) :=
  (specRuns block_sz blocks).map (fmtRun block_sz)

/-! ## Helper lemmas -/

/-- When `try_module_get` succeeds, `disable_unload` always leaves the flag
cleared (it either clears it now or it was already cleared). -/
theorem disable_unload_true (u : Bool) : disable_unload true u = false := by
  cases u <;> rfl

/-- Once `unloadable` is `false`, `disable_unload` keeps it `false`. -/
theorem disable_unload_of_false (mg : Bool) : disable_unload mg false = false := by
  cases mg <;> rfl

/-- Closed form of the `scavenge_store` pop/register loop: with
`q = size / block_sz` pops available by budget, it pops `min q length`
blocks off the front, pairing each with its registration outcome, and the
final `size` is what remains of the budget. -/
theorem scavenge_loop_eq (reg : Nat → Bool) (block_sz : Nat) (hbs : 0 < block_sz) :
    ∀ (blocks : List Nat) (size : Nat),
      scavenge_loop reg block_sz size blocks =
        ((blocks.take (size / block_sz)).map (fun b => (b, reg b)),
         blocks.drop (size / block_sz),
         size - block_sz * min (size / block_sz) blocks.length) := by
  intro blocks
  induction blocks with
  | nil => intro size; simp [scavenge_loop]
  | cons b rest ih =>
    intro size
    by_cases h : block_sz ≤ size
    · have hdiv : size / block_sz = (size - block_sz) / block_sz + 1 :=
        Nat.div_eq_sub_div hbs h
      simp only [scavenge_loop, if_pos h, ih (size - block_sz)]
      rw [hdiv]
      simp only [List.take_succ_cons, List.drop_succ_cons, List.map_cons,
        List.length_cons, Nat.succ_min_succ, Nat.mul_succ, Prod.mk.injEq]
      refine ⟨trivial, trivial, ?_⟩
      omega
    · have hdiv : size / block_sz = 0 := Nat.div_eq_of_lt (by omega)
      simp [scavenge_loop, h, hdiv]

/-- `unloadable = false` is absorbing under every engine operation. -/
theorem unloadable_false_forever (block_sz : Nat) :
    ∀ (ops : List Op) (st : ScavState), st.unloadable = false →
      (runOps block_sz st ops).unloadable = false := by
  intro ops
  induction ops with
  | nil => intro st h; exact h
  | cons op rest ih =>
    intro st h
    refine ih _ ?_
    cases op with
    | scavenge reg mg size =>
      simp only [Op.step, scavenge_store]
      by_cases hv : size = 0 ∨ size % block_sz ≠ 0
      · rw [if_pos hv]; exact h
      · rw [if_neg hv]
        simp only [h, disable_unload_of_false]
        split <;> rfl
    | probe mg addr ok =>
      simp only [Op.step]
      split
      · simp [h, disable_unload_of_false]
      · exact h

/-! ## C4 — invalid scavenge size: `-EINVAL`, no state change -/

/-- C4: a scavenge request whose parsed size is zero or not a multiple of
the block size fails with `-EINVAL` and performs no state change at all
(in particular the hidden block list and `unloadable` are untouched). -/
theorem scavenge_invalid_size_no_change (reg : Nat → Bool) (mg : Bool)
    (block_sz size : Nat) (st : ScavState)
    (h : size = 0 ∨ size % block_sz ≠ 0) :
    scavenge_store reg mg block_sz size st = (-22, [], st) := by
  unfold scavenge_store
  rw [if_pos h]

/-- C4 witness: the spec's scenario `size = 0x1800`, `block_sz = 0x1000`. -/
theorem scavenge_invalid_size_no_change_witness :
    ((0x1800 : Nat) = 0 ∨ (0x1800 : Nat) % 0x1000 ≠ 0) ∧
    scavenge_store (fun _ => true) true 0x1000 0x1800 ⟨[0x4000], 1, true⟩ =
      (-22, [], ⟨[0x4000], 1, true⟩) :=
  ⟨by decide,
   scavenge_invalid_size_no_change (fun _ => true) true 0x1000 0x1800
     ⟨[0x4000], 1, true⟩ (by decide)⟩

/-! ## C2 — irreversibility of `unloadable` -/

/-- C2 counterexample: a validated scavenge that pops one block but whose
`try_module_get` fails (`mg = false`) returns with `unloadable` still
`true`, contrary to the claim that the flag is false whenever at least one
block was popped. -/
theorem scavenge_unloadable_counterexample :
    ((scavenge_store (fun _ => true) false 0x1000 0x1000
        ⟨[0x4000], 1, true⟩).2.1.length = 1) ∧
    (scavenge_store (fun _ => true) false 0x1000 0x1000
        ⟨[0x4000], 1, true⟩).2.2.unloadable = true :=
  ⟨rfl, rfl⟩

/-- C2 (amended): a validated scavenge that pops at least one block clears
`unloadable`, provided the module pin `try_module_get` succeeds; and once
the call returns, no sequence of further engine operations ever sets the
flag back to `true`. -/
theorem scavenge_locks_permanently (reg : Nat → Bool) (block_sz size : Nat)
    (st : ScavState) (hbs : 0 < block_sz) (hnz : size ≠ 0)
    (hmul : size % block_sz = 0) (hne : st.hidden_blocks ≠ []) :
    (scavenge_store reg true block_sz size st).2.2.unloadable = false
    ∧ ∀ ops : List Op,
        (runOps block_sz (scavenge_store reg true block_sz size st).2.2 ops).unloadable
          = false := by
  have hle : block_sz ≤ size :=
    Nat.le_of_dvd (Nat.pos_of_ne_zero hnz) (Nat.dvd_of_mod_eq_zero hmul)
  have hq : 1 ≤ size / block_sz := (Nat.one_le_div_iff hbs).mpr hle
  have hlen : 1 ≤ st.hidden_blocks.length := by
    cases hb : st.hidden_blocks with
    | nil => exact absurd hb hne
    | cons x xs => simp [hb]
  have hflag : (scavenge_store reg true block_sz size st).2.2.unloadable = false := by
    unfold scavenge_store
    rw [if_neg (by omega)]
    simp only [scavenge_loop_eq reg block_sz hbs]
    have hmin : 1 ≤ min (size / block_sz) st.hidden_blocks.length := le_min hq hlen
    have hlt : size - block_sz * min (size / block_sz) st.hidden_blocks.length < size := by
      have : block_sz ≤ block_sz * min (size / block_sz) st.hidden_blocks.length :=
        Nat.le_mul_of_pos_right block_sz hmin
      omega
    simp only [if_pos hlt, disable_unload_true]
  exact ⟨hflag, fun ops => unloadable_false_forever block_sz ops _ hflag⟩

/-- C2 witness: concrete validated scavenge popping one block with the pin
succeeding. -/
theorem scavenge_locks_permanently_witness :
    (0 < 0x1000) ∧ ((0x1000 : Nat) ≠ 0) ∧ ((0x1000 : Nat) % 0x1000 = 0) ∧
    ([0x4000] ≠ ([] : List Nat)) ∧
    (scavenge_store (fun _ => true) true 0x1000 0x1000
        ⟨[0x4000], 1, true⟩).2.2.unloadable = false :=
  ⟨by decide, by decide, by decide, by decide,
   (scavenge_locks_permanently (fun _ => true) 0x1000 0x1000 ⟨[0x4000], 1, true⟩
     (by decide) (by decide) (by decide) (by decide)).1⟩

/-! ## C6 — all-or-nothing on allocation failure -/

/-- C6: an allocation failure while building the range map empties the
range collection, and an allocation failure while scanning for hidden
blocks empties the hidden block list — no partial map or list is
observable after a failed operation. -/
theorem alloc_failure_all_or_nothing (alloc : Nat → Bool) (free : Nat → Nat → Bool)
    (mds : List EfiDesc) (block_sz fuel : Nat) (ranges : List Range) :
    ((ram_map_from_efi_run alloc mds).1 ≠ 0 → (ram_map_from_efi_run alloc mds).2 = [])
    ∧ ((find_hidden_blocks_run free alloc block_sz fuel ranges).1 ≠ 0 →
        (find_hidden_blocks_run free alloc block_sz fuel ranges).2.1 = []) := by
  constructor
  · intro h
    unfold ram_map_from_efi_run at *
    cases heq : ram_map_from_efiAux alloc mds 0 <;> simp [heq] at h ⊢
  · intro h
    unfold find_hidden_blocks_run at *
    cases heq : find_hidden_blocksAux free alloc block_sz fuel ranges 0 <;>
      simp [heq] at h ⊢

/-- C6 witness: an allocator that always fails aborts both the EFI build
(one conventional descriptor) and the scan (one range with free blocks),
each leaving its collection empty. -/
theorem alloc_failure_all_or_nothing_witness :
    (ram_map_from_efi_run (fun _ => false) [⟨7, 0, 1⟩]).1 ≠ 0 ∧
    (ram_map_from_efi_run (fun _ => false) [⟨7, 0, 1⟩]).2 = [] ∧
    (find_hidden_blocks_run (fun _ _ => true) (fun _ => false) 0x1000 10 [⟨0, 0x2FFF⟩]).1 ≠ 0 ∧
    (find_hidden_blocks_run (fun _ _ => true) (fun _ => false) 0x1000 10 [⟨0, 0x2FFF⟩]).2.1 = [] := by
  have h1 : (ram_map_from_efi_run (fun _ => false) [⟨7, 0, 1⟩]).1 ≠ 0 := by decide
  have h2 : (find_hidden_blocks_run (fun _ _ => true) (fun _ => false)
      0x1000 10 [⟨0, 0x2FFF⟩]).1 ≠ 0 := by decide
  exact ⟨h1,
    (alloc_failure_all_or_nothing (fun _ => false) (fun _ _ => true) [⟨7, 0, 1⟩]
      0x1000 10 [⟨0, 0x2FFF⟩]).1 h1,
    h2,
    (alloc_failure_all_or_nothing (fun _ => false) (fun _ _ => true) [⟨7, 0, 1⟩]
      0x1000 10 [⟨0, 0x2FFF⟩]).2 h2⟩

/-! ## C7 — the built range map is sorted and complete -/

/-- C7: for both providers, the successfully built range map is sorted
ascending by `start` and is a permutation of (hence has exactly) one range
`[base, base + size - 1]` per valid provider entry (EFI conventional
descriptors, respectively device-tree reg pairs). -/
theorem ram_map_sorted_and_complete (mds : List EfiDesc)
    (nodes : List (List (Nat × Nat))) :
    List.Sorted (fun a b : Range => a.start ≤ b.start) (ram_map_from_efi mds)
    ∧ (ram_map_from_efi mds).Perm
        ((mds.filter fun md => md.typ == EFI_CONVENTIONAL_MEMORY).map fun md =>
          mkRange md.phys_addr (md.num_pages * 2 ^ EFI_PAGE_SHIFT % U64))
    ∧ List.Sorted (fun a b : Range => a.start ≤ b.start) (ram_map_from_fdt nodes)
    ∧ (ram_map_from_fdt nodes).Perm ((nodes.flatten).map fun p => mkRange p.1 p.2) := by
  have htrans : ∀ a b c : Range, cmp_range_le a b = true → cmp_range_le b c = true →
      cmp_range_le a c = true := by
    intro a b c hab hbc
    simp only [cmp_range_le, decide_eq_true_eq] at *
    omega
  have htotal : ∀ a b : Range, (cmp_range_le a b || cmp_range_le b a) = true := by
    intro a b
    simp only [cmp_range_le, Bool.or_eq_true, decide_eq_true_eq]
    omega
  refine ⟨?_, List.mergeSort_perm _ _, ?_, List.mergeSort_perm _ _⟩ <;>
    exact List.Pairwise.imp
      (fun h => by simpa [cmp_range_le, decide_eq_true_eq] using h)
      (List.sorted_mergeSort htrans htotal _)

/-! ## C3 — exact scavenge consumes the first N blocks -/

/-- C3: with at least `N` hidden blocks available and every registration of
the first `N` succeeding, a scavenge of `N * block_sz` bytes succeeds,
pops exactly the first `N` blocks in discovery order, leaves the list equal
to the old suffix after those `N`, and reports `N` attempts with zero
failures. -/
theorem scavenge_exact_consumes_first_n (reg : Nat → Bool) (block_sz n : Nat)
    (st : ScavState) (hbs : 0 < block_sz) (hn : 0 < n)
    (hlen : n ≤ st.hidden_blocks.length)
    (hreg : ∀ b ∈ st.hidden_blocks.take n, reg b = true) :
    (scavenge_store reg true block_sz (n * block_sz) st).1 = 0
    ∧ ((scavenge_store reg true block_sz (n * block_sz) st).2.1).map Prod.fst
        = st.hidden_blocks.take n
    ∧ (scavenge_store reg true block_sz (n * block_sz) st).2.2.hidden_blocks
        = st.hidden_blocks.drop n
    ∧ ((scavenge_store reg true block_sz (n * block_sz) st).2.1).length = n
    ∧ ((scavenge_store reg true block_sz (n * block_sz) st).2.1).filter
        (fun p => !p.2) = [] := by
  have hnz : n * block_sz ≠ 0 := Nat.mul_ne_zero (by omega) (by omega)
  have hmod : n * block_sz % block_sz = 0 := Nat.mul_mod_left n block_sz
  have hdiv : n * block_sz / block_sz = n := Nat.mul_div_cancel n hbs
  unfold scavenge_store
  rw [if_neg (by omega)]
  simp only [scavenge_loop_eq reg block_sz hbs, hdiv]
  refine ⟨trivial, ?_, trivial, ?_, ?_⟩
  · have hcomp : (Prod.fst ∘ fun b : Nat => (b, reg b)) = fun b => b :=
      funext fun b => rfl
    rw [List.map_map, hcomp]
    simp
  · simp only [List.length_map, List.length_take]
    omega
  · rw [List.filter_eq_nil_iff]
    intro p hp
    rcases List.mem_map.mp hp with ⟨b, hb, rfl⟩
    simp [hreg b hb]

/-- C3 witness: four blocks, scavenge of `2 * 0x1000` bytes with all
registrations succeeding. -/
theorem scavenge_exact_consumes_first_n_witness :
    (0 < 0x1000) ∧ (0 < 2) ∧ (2 ≤ [0x4000, 0x5000, 0x6000, 0x7000].length) ∧
    ((scavenge_store (fun _ => true) true 0x1000 (2 * 0x1000)
        ⟨[0x4000, 0x5000, 0x6000, 0x7000], 4, true⟩).2.2.hidden_blocks
      = [0x6000, 0x7000]) := by
  refine ⟨by decide, by decide, by decide, ?_⟩
  have h := scavenge_exact_consumes_first_n (fun _ => true) 0x1000 2
    ⟨[0x4000, 0x5000, 0x6000, 0x7000], 4, true⟩ (by decide) (by decide) (by decide)
    (by intro b _; rfl)
  exact h.2.2.1

/-! ## C5 — over-large scavenge drains the list, no error -/

/-- C5: a scavenge of `N * block_sz` bytes when fewer than `N` blocks remain
is not an error: the whole list is drained (every remaining block popped, in
order) and the number attempted equals the number that was available, which
is less than `N`. -/
theorem scavenge_drains_when_short (reg : Nat → Bool) (block_sz n : Nat)
    (st : ScavState) (hbs : 0 < block_sz)
    (hlen : st.hidden_blocks.length < n) :
    (scavenge_store reg true block_sz (n * block_sz) st).1 = 0
    ∧ (scavenge_store reg true block_sz (n * block_sz) st).2.2.hidden_blocks = []
    ∧ ((scavenge_store reg true block_sz (n * block_sz) st).2.1).map Prod.fst
        = st.hidden_blocks
    ∧ ((scavenge_store reg true block_sz (n * block_sz) st).2.1).length
        = st.hidden_blocks.length := by
  have hn : 0 < n := by omega
  have hnz : n * block_sz ≠ 0 := Nat.mul_ne_zero (by omega) (by omega)
  have hmod : n * block_sz % block_sz = 0 := Nat.mul_mod_left n block_sz
  have hdiv : n * block_sz / block_sz = n := Nat.mul_div_cancel n hbs
  unfold scavenge_store
  rw [if_neg (by omega)]
  simp only [scavenge_loop_eq reg block_sz hbs, hdiv]
  refine ⟨trivial, ?_, ?_, ?_⟩
  · exact List.drop_eq_nil_of_le (by omega)
  · rw [List.take_of_length_le (by omega)]
    have hcomp : (Prod.fst ∘ fun b : Nat => (b, reg b)) = fun b => b :=
      funext fun b => rfl
    rw [List.map_map, hcomp]
    simp
  · simp only [List.length_map, List.length_take]
    omega

/-- C5 witness: two blocks, scavenge of `5 * 0x1000` bytes. -/
theorem scavenge_drains_when_short_witness :
    (0 < 0x1000) ∧ ([0x4000, 0x5000].length < 5) ∧
    ((scavenge_store (fun _ => true) true 0x1000 (5 * 0x1000)
        ⟨[0x4000, 0x5000], 2, true⟩).2.2.hidden_blocks = []) := by
  refine ⟨by decide, by decide, ?_⟩
  exact (scavenge_drains_when_short (fun _ => true) 0x1000 5
    ⟨[0x4000, 0x5000], 2, true⟩ (by decide) (by decide)).2.1

/-! ## C1 — the scanner skips the last fully-fitting block -/

/-- The resource tracker of the spec's scenario: everything is free except
the tracked span `[0x0, 0xFFF]`, so a block query is `REGION_DISJOINT` iff
its start is above `0xFFF`. -/
def tracker_free_above_fff (addr _sz : Nat) : Bool := decide (0xFFF < addr)

/-- C1 (code evaluated at the claim's own scenario): on the range map
`[(0x0, 0xFFF), (0x4000, 0x7FFF)]` with block size `0x1000`, for every
sufficient fuel the scanner produces `[0x4000, 0x5000, 0x6000]` — the
claim (and the spec's scenario) expects `0x7000` as well, but the guard
`start + block_sz < ranges[i].end` of memscav.c:241 is already false for
`start = 0x7000` (`0x8000 < 0x7FFF` fails), so the last fully-fitting
block of each range is skipped. -/
theorem scan_scenario_misses_last_block (fuel : Nat) (hf : 4 ≤ fuel) :
    find_hidden_blocks tracker_free_above_fff 0x1000 fuel
        [⟨0x0, 0xFFF⟩, ⟨0x4000, 0x7FFF⟩] = [0x4000, 0x5000, 0x6000] := by
  have h1 : scanTerm 0x1000 0xFFF 4 (ALIGN 0x0 0x1000) = true := rfl
  have h2 : scanTerm 0x1000 0x7FFF 4 (ALIGN 0x4000 0x1000) = true := rfl
  simp only [find_hidden_blocks, List.foldr_cons, List.foldr_nil, List.append_nil]
  rw [scanLoop_stable tracker_free_above_fff 0x1000 0xFFF 4 (ALIGN 0x0 0x1000) h1 fuel hf,
    scanLoop_stable tracker_free_above_fff 0x1000 0x7FFF 4 (ALIGN 0x4000 0x1000) h2 fuel hf]
  rfl

/-- C1 witness: the smallest sufficient fuel. -/
theorem scan_scenario_misses_last_block_witness :
    4 ≤ 4 ∧ find_hidden_blocks tracker_free_above_fff 0x1000 4
        [⟨0x0, 0xFFF⟩, ⟨0x4000, 0x7FFF⟩] = [0x4000, 0x5000, 0x6000] :=
  ⟨by decide, scan_scenario_misses_last_block 4 (by decide)⟩

/-! ## C9 — the loop bound wraps at the top of the address space -/

/-- The scan-loop trajectory from a block-aligned start never satisfies the
exit condition when the range ends at the maximal u64 address: every
visited `start` is a multiple of the block size, so
`(start + block_sz) % 2^64` is again a multiple of it — hence never equal
to, and therefore always below, the odd bound `2^64 - 1`. -/
theorem scanLoop_max_end_never_exits (fuel : Nat) :
    ∀ start : Nat, 0x1000 ∣ start → start < U64 →
      (scanLoop (fun _ _ => true) 0x1000 (U64 - 1) fuel start).length = fuel := by
  induction fuel with
  | zero => intro start _ _; rfl
  | succ k ih =>
    intro start hdvd hlt
    have hdvdU : (0x1000 : Nat) ∣ U64 := ⟨2 ^ 52, by norm_num [U64]⟩
    have hd2 : (0x1000 : Nat) ∣ (start + 0x1000) % U64 :=
      (Nat.dvd_mod_iff hdvdU).mpr (Nat.dvd_add hdvd dvd_rfl)
    have hne : (start + 0x1000) % U64 ≠ U64 - 1 := by
      intro hEq
      have hdd : (0x1000 : Nat) ∣ U64 - 1 := hEq ▸ hd2
      obtain ⟨c, hc⟩ := hdd
      norm_num [U64] at hc
      omega
    have hguard : (start + 0x1000) % U64 < U64 - 1 := by
      have hm : (start + 0x1000) % U64 < U64 := Nat.mod_lt _ (by norm_num [U64])
      omega
    have hstep : scanLoop (fun _ _ => true) 0x1000 (U64 - 1) (k + 1) start
        = (if (start + 0x1000) % U64 < U64 - 1 then
            start :: scanLoop (fun _ _ => true) 0x1000 (U64 - 1) k ((start + 0x1000) % U64)
          else []) := rfl
    rw [hstep, if_pos hguard, List.length_cons,
      ih _ hd2 (Nat.mod_lt _ (by norm_num [U64]))]

/-- C9 (refuting evaluation): on the single range `[0, 2^64 - 1]` with
block size `0x1000` and an always-free tracker, the per-range loop performs
exactly as many iterations as it is given fuel — the u64 bound computation
`start + block_sz` wraps, the guard never fails, and the C loop therefore
never terminates (and, once wrapped, appends addresses from `0` upward
again). -/
theorem scan_max_range_never_terminates (fuel : Nat) :
    (find_hidden_blocks (fun _ _ => true) 0x1000 fuel [⟨0, U64 - 1⟩]).length = fuel := by
  have hA : ALIGN 0 0x1000 = 0 := rfl
  simp only [find_hidden_blocks, List.foldr_cons, List.foldr_nil, List.append_nil]
  rw [hA]
  exact scanLoop_max_end_never_exits fuel 0 ⟨0, rfl⟩ (by norm_num [U64])

/-! ## C10 — the block counter is not maintained by scavenge -/

/-- C10 (code evaluated at the failing input): starting from one hidden
block and a consistent counter (`cnt = 1`), a validated scavenge of one
block empties the list but leaves `hidden_blocks_cnt = 1`: the pop loop of
`scavenge_store` removes nodes with a bare `list_del` and never decrements
the counter (`hidden_block_free` is not called there). -/
theorem scavenge_counter_desync :
    ((scavenge_store (fun _ => true) true 0x1000 0x1000
        ⟨[0x4000], 1, true⟩).2.2.hidden_blocks_cnt = 1)
    ∧ ((scavenge_store (fun _ => true) true 0x1000 0x1000
        ⟨[0x4000], 1, true⟩).2.2.hidden_blocks.length = 0) :=
  ⟨rfl, rfl⟩

/-! ## C8 — the sysfs coalescing matches the spec's maximal runs -/

/-- What the C loop still emits when the open run accumulator is
`(start, size)` and the spec-side decomposition of the remaining input is
given: the open run either absorbs the first following run (when
contiguous) or is flushed before it. -/
def mergeFmt (block_sz start size : Nat) : List (List Nat) → List (Nat × Nat)
  | [] => [(start, size)]
  | run :: rs =>
    if start + size = run.headD 0 then
      (start, size + run.length * block_sz) :: rs.map (fmtRun block_sz)
    else (start, size) :: (run :: rs).map (fmtRun block_sz)

/-- The spec-side decomposition never produces an empty run. -/
theorem specRuns_ne_nil (block_sz : Nat) :
    ∀ (l : List Nat) (run : List Nat), run ∈ specRuns block_sz l → run ≠ [] := by
  intro l
  induction l with
  | nil => intro run h; simp [specRuns] at h
  | cons b rest ih =>
    intro run h
    simp only [specRuns] at h
    split at h
    · simp at h
      simp [h]
    · rename_i rs heq
      exact absurd rfl (ih [] (heq ▸ List.mem_cons_self _ _))
    · rename_i c run' rs heq
      split at h
      · rcases List.mem_cons.mp h with h1 | h1
        · simp [h1]
        · exact ih run (heq ▸ List.mem_cons_of_mem _ h1)
      · rcases List.mem_cons.mp h with h1 | h1
        · simp [h1]
        · exact ih run (heq ▸ h1)

/-- Core correspondence between the C coalescing loop with an open run
accumulator `(start, size)` and the spec's maximal-run decomposition of
the remaining input.  The hypothesis `start + size < U64` (the open run's
one-past-the-end address does not wrap) makes the u64 comparison
`(start + size) % 2^64 == b` exact; it is maintained because every block
satisfies `b + block_sz < U64`. -/
theorem coalesceAux_spec (block_sz : Nat) (hbs : 0 < block_sz) :
    ∀ (rest : List Nat) (start size : Nat), 0 < size → start + size < U64 →
      (∀ b ∈ rest, b + block_sz < U64) →
      coalesceAux block_sz rest start size
        = mergeFmt block_sz start size (specRuns block_sz rest) := by
  intro rest
  induction rest with
  | nil =>
    intro start size hsz _ _
    simp [coalesceAux, specRuns, mergeFmt, Nat.pos_iff_ne_zero.mp hsz]
  | cons b rest' ih =>
    intro start size hsz hlt hall
    have hblt : b + block_sz < U64 := hall b (List.mem_cons_self b rest')
    have hall' : ∀ x ∈ rest', x + block_sz < U64 :=
      fun x hx => hall x (List.mem_cons_of_mem b hx)
    have hmod : (start + size) % U64 = start + size := Nat.mod_eq_of_lt hlt
    have hunfold : coalesceAux block_sz (b :: rest') start size
        = if (start + size) % U64 = b then
            coalesceAux block_sz rest' start (size + block_sz)
          else (start, size) :: coalesceAux block_sz rest' b block_sz := by
      simp [coalesceAux, Nat.pos_iff_ne_zero.mp hsz]
    rw [hunfold, hmod]
    by_cases hc : start + size = b
    · rw [if_pos hc]
      rw [ih start (size + block_sz) (by omega) (by omega) hall']
      cases hS : specRuns block_sz rest' with
      | nil => simp [specRuns, hS, mergeFmt, hc, fmtRun]
      | cons r0 rs =>
        cases r0 with
        | nil =>
          exact absurd rfl (specRuns_ne_nil block_sz rest' [] (hS ▸ List.mem_cons_self _ _))
        | cons c run' =>
          by_cases hbc : b + block_sz = c
          · have hcond : start + (size + block_sz) = c := by omega
            simp [specRuns, hS, mergeFmt, hbc, hcond, hc, fmtRun]
            ring
          · have hcond : start + (size + block_sz) ≠ c := by omega
            simp [specRuns, hS, mergeFmt, hbc, hcond, hc, fmtRun]
    · rw [if_neg hc]
      rw [ih b block_sz hbs hblt hall']
      cases hS : specRuns block_sz rest' with
      | nil => simp [specRuns, hS, mergeFmt, hc, fmtRun]
      | cons r0 rs =>
        cases r0 with
        | nil =>
          exact absurd rfl (specRuns_ne_nil block_sz rest' [] (hS ▸ List.mem_cons_self _ _))
        | cons c run' =>
          by_cases hbc : b + block_sz = c
          · simp [specRuns, hS, mergeFmt, hbc, hc, fmtRun]
            ring
          · simp [specRuns, hS, mergeFmt, hbc, hc, fmtRun]

/-- A fresh single-block accumulator `(b, block_sz)` continues exactly as
the spec decomposition of `b :: rest`. -/
theorem mergeFmt_cons (block_sz : Nat) (b : Nat) (rest : List Nat) :
    mergeFmt block_sz b block_sz (specRuns block_sz rest)
      = (specRuns block_sz (b :: rest)).map (fmtRun block_sz) := by
  cases hS : specRuns block_sz rest with
  | nil => simp [mergeFmt, specRuns, hS, fmtRun]
  | cons r0 rs =>
    cases r0 with
    | nil =>
      exact absurd rfl (specRuns_ne_nil block_sz rest [] (hS ▸ List.mem_cons_self _ _))
    | cons c run' =>
      by_cases hbc : b + block_sz = c
      · simp [mergeFmt, specRuns, hS, hbc, fmtRun]
        ring
      · simp [mergeFmt, specRuns, hS, hbc, fmtRun]

/-- The C loop turns an open accumulator followed by `k` further contiguous
blocks into the single coalesced pair `(start, size + k * block_sz)`. -/
theorem coalesceAux_run (block_sz : Nat) (hbs : 0 < block_sz) :
    ∀ (k start size : Nat), 0 < size → start + size + k * block_sz < U64 →
      coalesceAux block_sz
          ((List.range k).map fun i => start + size + i * block_sz) start size
        = [(start, size + k * block_sz)] := by
  intro k
  induction k with
  | zero =>
    intro start size hsz _
    simp [coalesceAux, Nat.pos_iff_ne_zero.mp hsz]
  | succ k ih =>
    intro start size hsz hlt
    rw [List.range_succ_eq_map]
    simp only [List.map_cons, List.map_map]
    have hhead : start + size + 0 * block_sz = start + size := by ring
    have htail : ((fun i => start + size + i * block_sz) ∘ Nat.succ)
        = fun i => start + (size + block_sz) + i * block_sz := by
      funext i
      simp only [Function.comp_apply, Nat.succ_eq_add_one]
      ring
    rw [hhead, htail]
    have hsmall : start + size < U64 := by
      have : (k + 1) * block_sz ≥ 0 := Nat.zero_le _
      omega
    have hmod : (start + size) % U64 = start + size := Nat.mod_eq_of_lt hsmall
    have hunfold : coalesceAux block_sz
          ((start + size) :: (List.range k).map fun i => start + (size + block_sz) + i * block_sz)
          start size
        = if (start + size) % U64 = start + size then
            coalesceAux block_sz
              ((List.range k).map fun i => start + (size + block_sz) + i * block_sz)
              start (size + block_sz)
          else (start, size) :: coalesceAux block_sz
              ((List.range k).map fun i => start + (size + block_sz) + i * block_sz)
              (start + size) block_sz := by
      simp [coalesceAux, Nat.pos_iff_ne_zero.mp hsz]
    rw [hunfold, if_pos hmod]
    have hlt' : start + (size + block_sz) + k * block_sz < U64 := by
      have hexp : (k + 1) * block_sz = k * block_sz + block_sz := by ring
      omega
    rw [ih start (size + block_sz) (by omega) hlt']
    have : size + block_sz + k * block_sz = size + (k + 1) * block_sz := by ring
    rw [this]

/-- C8: `hidden_blocks_show` renders exactly one `(run_start, run_size)`
line per maximal run of address-contiguous blocks, matching the spec-side
`format_hidden_blocks`; and, in particular, `k` contiguous blocks starting
at `a` render as the single line `a-(a + k * block_sz - 1) (k * block_sz)`.
The side conditions only exclude blocks whose one-past-the-end address
wraps around `2^64`. -/
theorem hidden_blocks_show_coalesces (block_sz : Nat) (blocks : List Nat)
    (hbs : 0 < block_sz) (hb : ∀ b ∈ blocks, b + block_sz < U64) :
    hidden_blocks_show block_sz blocks = spec_format_hidden_blocks block_sz blocks
    ∧ ∀ a k : Nat, 0 < k → a + k * block_sz < U64 →
        (hidden_blocks_show block_sz
            ((List.range k).map fun i => a + i * block_sz)).map render_line
          = [(a, a + k * block_sz - 1, k * block_sz)] := by
  constructor
  · cases blocks with
    | nil => rfl
    | cons b rest =>
      have hb0 : b + block_sz < U64 := hb b (List.mem_cons_self _ _)
      have hrest : ∀ x ∈ rest, x + block_sz < U64 :=
        fun x hx => hb x (List.mem_cons_of_mem _ hx)
      have h0 : hidden_blocks_show block_sz (b :: rest)
          = coalesceAux block_sz rest b block_sz := by
        simp [hidden_blocks_show, coalesceAux]
      rw [h0, coalesceAux_spec block_sz hbs rest b block_sz hbs hb0 hrest,
        mergeFmt_cons]
      rfl
  · intro a k hk hlt
    cases k with
    | zero => omega
    | succ k' =>
      have hexp : (k' + 1) * block_sz = k' * block_sz + block_sz := by ring
      have hshow : hidden_blocks_show block_sz
            ((List.range (k' + 1)).map fun i => a + i * block_sz)
          = [(a, (k' + 1) * block_sz)] := by
        rw [List.range_succ_eq_map]
        simp only [List.map_cons, List.map_map]
        have hhead : a + 0 * block_sz = a := by ring
        have htail : ((fun i => a + i * block_sz) ∘ Nat.succ)
            = fun i => a + block_sz + i * block_sz := by
          funext i
          simp only [Function.comp_apply, Nat.succ_eq_add_one]
          ring
        rw [hhead, htail]
        have h0 : hidden_blocks_show block_sz
              (a :: (List.range k').map fun i => a + block_sz + i * block_sz)
            = coalesceAux block_sz
              ((List.range k').map fun i => a + block_sz + i * block_sz) a block_sz := by
          simp [hidden_blocks_show, coalesceAux]
        rw [h0, coalesceAux_run block_sz hbs k' a block_sz hbs (by omega)]
        have : block_sz + k' * block_sz = (k' + 1) * block_sz := by ring
        rw [this]
      rw [hshow]
      have h1 : 1 ≤ a + (k' + 1) * block_sz := by omega
      have hU : 1 ≤ U64 := by norm_num [U64]
      simp only [List.map_cons, List.map_nil, render_line]
      have h2 : a + (k' + 1) * block_sz + (U64 - 1)
          = (a + (k' + 1) * block_sz - 1) + U64 := by omega
      rw [h2, Nat.add_mod_right, Nat.mod_eq_of_lt (by omega)]

/-- C8 witness: the spec's scenario, four contiguous blocks from `0x4000`
coalescing into the single line `0x4000-0x7fff (0x4000)`. -/
theorem hidden_blocks_show_coalesces_witness :
    (0 < 0x1000)
    ∧ (∀ b ∈ [0x4000, 0x5000, 0x6000, 0x7000], b + 0x1000 < U64)
    ∧ hidden_blocks_show 0x1000 [0x4000, 0x5000, 0x6000, 0x7000]
        = spec_format_hidden_blocks 0x1000 [0x4000, 0x5000, 0x6000, 0x7000] :=
  ⟨by decide, by decide,
   (hidden_blocks_show_coalesces 0x1000 [0x4000, 0x5000, 0x6000, 0x7000]
     (by decide) (by decide)).1⟩

end Memscav
